import Mathlib

/-!
Verification of the control core of the `amp` modal text editor:
token-aware cursor navigation (`src/commands/cursor.rs`), the mode to
keymap-name mapping and the run loop (`src/models/application/mod.rs`).

Conventions of the embedding:
* Text is a `List Char`; `usize` byte lengths of the Rust code are modelled
  as character counts (they coincide on the ASCII inputs of every scenario,
  and the structure of the algorithms does not depend on the unit).
* `scribe::buffer::Position` derives `Ord` on the fields `line`, `offset`
  in that order, hence the lexicographic order below.
* `buffer.cursor.move_to(p)` of the external buffer collaborator is
  modelled as assignment of `p` (every position the core passes to it is
  a token start inside the content, and `(0,0)` is always in bounds).
-/

/-- Model of `scribe::buffer::Position`: zero-based line and character
offset, ordered lexicographically (the Rust struct derives `Ord` with
`line` before `offset`). -/
structure Position where
  line : Nat
  offset : Nat
deriving DecidableEq, Repr

instance : LT Position :=
  ⟨fun p q => p.line < q.line ∨ (p.line = q.line ∧ p.offset < q.offset)⟩

instance : LE Position :=
  ⟨fun p q => p.line < q.line ∨ (p.line = q.line ∧ p.offset ≤ q.offset)⟩

theorem Position.lt_def (p q : Position) :
    p < q ↔ p.line < q.line ∨ (p.line = q.line ∧ p.offset < q.offset) :=
  Iff.rfl

theorem Position.le_def (p q : Position) :
    p ≤ q ↔ p.line < q.line ∨ (p.line = q.line ∧ p.offset ≤ q.offset) :=
  Iff.rfl

instance (p q : Position) : Decidable (p < q) :=
  inferInstanceAs (Decidable (p.line < q.line ∨ (p.line = q.line ∧ p.offset < q.offset)))

instance (p q : Position) : Decidable (p ≤ q) :=
  inferInstanceAs (Decidable (p.line < q.line ∨ (p.line = q.line ∧ p.offset ≤ q.offset)))

theorem pos_le_refl (p : Position) : p ≤ p := by
  obtain ⟨a, b⟩ := p
  simp [Position.le_def]

theorem pos_zero_le (p : Position) : (⟨0, 0⟩ : Position) ≤ p := by
  obtain ⟨a, b⟩ := p
  simp [Position.le_def]
  omega

theorem pos_not_lt_zero (p : Position) : ¬ p < (⟨0, 0⟩ : Position) := by
  obtain ⟨a, b⟩ := p
  simp [Position.lt_def]

theorem pos_le_of_lt {p q : Position} (h : p < q) : p ≤ q := by
  obtain ⟨a, b⟩ := p; obtain ⟨c, d⟩ := q
  simp [Position.lt_def, Position.le_def] at *
  omega

theorem pos_le_trans {p q r : Position} (h1 : p ≤ q) (h2 : q ≤ r) : p ≤ r := by
  obtain ⟨a, b⟩ := p; obtain ⟨c, d⟩ := q; obtain ⟨e, f⟩ := r
  simp [Position.le_def] at *
  omega

theorem pos_lt_of_le_of_lt {p q r : Position} (h1 : p ≤ q) (h2 : q < r) : p < r := by
  obtain ⟨a, b⟩ := p; obtain ⟨c, d⟩ := q; obtain ⟨e, f⟩ := r
  simp [Position.le_def, Position.lt_def] at *
  omega

theorem pos_lt_of_lt_of_le {p q r : Position} (h1 : p < q) (h2 : q ≤ r) : p < r := by
  obtain ⟨a, b⟩ := p; obtain ⟨c, d⟩ := q; obtain ⟨e, f⟩ := r
  simp [Position.le_def, Position.lt_def] at *
  omega

theorem pos_lt_of_not_le {p q : Position} (h : ¬ p ≤ q) : q < p := by
  obtain ⟨a, b⟩ := p; obtain ⟨c, d⟩ := q
  simp [Position.le_def, Position.lt_def] at *
  omega

theorem pos_not_lt_of_le {p q : Position} (h : p ≤ q) : ¬ q < p := by
  obtain ⟨a, b⟩ := p; obtain ⟨c, d⟩ := q
  simp [Position.le_def, Position.lt_def] at *
  omega

theorem pos_zero_or_zero_lt (p : Position) :
    p = (⟨0, 0⟩ : Position) ∨ (⟨0, 0⟩ : Position) < p := by
  obtain ⟨a, b⟩ := p
  by_cases ha : a = 0
  · by_cases hb : b = 0
    · subst ha; subst hb; exact Or.inl rfl
    · exact Or.inr (by simp [Position.lt_def]; omega)
  · exact Or.inr (by simp [Position.lt_def]; omega)

/-- Drops one leading carriage return. Applied to a *reversed* line
accumulator it models the way Rust's `str::lines()` strips a single `'\r'`
that immediately precedes the terminating `'\n'`. -/
def stripCR : List Char → List Char
  | [] => []
  | c :: rest => if c = '\r' then rest else c :: rest

/-- Worker for `rustLines`; `acc` holds the characters of the current line
in reverse order. When the input ends, a pending non-empty line is emitted;
a string that ends with a line terminator yields no trailing empty line,
exactly as Rust's `str::lines()`. -/
def rustLinesAux : List Char → List Char → List (List Char)
  | [], acc => if acc = [] then [] else [acc.reverse]
  | c :: rest, acc =>
    if c = '\n' then (stripCR acc).reverse :: rustLinesAux rest []
    else rustLinesAux rest (c :: acc)

/-- Model of Rust's `str::lines()`: split at `'\n'` (also consuming a
`'\r'` directly before it), without a trailing empty line when the string
ends in a terminator, and yielding nothing on the empty string. -/
def rustLines (s : List Char) : List (List Char) := rustLinesAux s []

/-- The suffix of `s` after its last `'\n'` (the whole of `s` when it has
no line break): the "final line" of a lexeme in the spec's sense. -/
def lastLineOf : List Char → List Char
  | [] => []
  | c :: rest =>
    if '\n' ∈ rest then lastLineOf rest
    else if c = '\n' then rest else c :: rest

/-- Advancing the running `(line, offset)` accumulator over one token
lexeme, as in `src/commands/cursor.rs` lines 110-126 and 157-173:
`match lexeme.lines().count() { 1 => offset += lexeme.len(),
n => { line += n-1; offset = lexeme.lines().last().unwrap().len(); } }`.
Note the Rust code panics on an empty lexeme (`last()` is `None` there and
`n-1` underflows); this total model returns `(line, 0)` in that case, and
theorems that depend on progress assume non-empty lexemes. -/
def advance (line offset : Nat) (lexeme : List Char) : Nat × Nat :=
  if (rustLines lexeme).length = 1 then
    (line, offset + lexeme.length)
  else
    (line + ((rustLines lexeme).length - 1),
     ((rustLines lexeme).getLast?.getD []).length)

theorem rustLinesAux_ne_nil (s : List Char) :
    ∀ acc : List Char, s ≠ [] ∨ acc ≠ [] → rustLinesAux s acc ≠ [] := by
  induction s with
  | nil =>
    intro acc h
    rcases h with h | h
    · exact absurd rfl h
    · simp [rustLinesAux, h]
  | cons c rest ih =>
    intro acc _
    by_cases hc : c = '\n'
    · simp [rustLinesAux, hc]
    · simpa [rustLinesAux, hc] using ih (c :: acc) (Or.inr (by simp))

theorem rustLines_ne_nil {s : List Char} (h : s ≠ []) : rustLines s ≠ [] :=
  rustLinesAux_ne_nil s [] (Or.inl h)

/-- With a non-empty lexeme the accumulator strictly advances: either the
offset grows on the same line, or the line number grows. -/
theorem advance_pos_lt (line offset : Nat) {lexeme : List Char} (h : lexeme ≠ []) :
    (⟨line, offset⟩ : Position) <
      ⟨(advance line offset lexeme).1, (advance line offset lexeme).2⟩ := by
  unfold advance
  by_cases h1 : (rustLines lexeme).length = 1
  · simp only [h1, if_pos]
    have hlen : lexeme.length ≠ 0 := by
      intro hc; exact h (List.length_eq_zero.mp hc)
    simp [Position.lt_def]
    omega
  · simp only [h1, if_neg, not_false_iff]
    have h0 : (rustLines lexeme).length ≠ 0 := by
      intro hc
      exact rustLines_ne_nil h (List.length_eq_zero.mp hc)
    simp [Position.lt_def]
    omega


theorem getLast?_cons_of_ne_nil {α : Type} (x : α) {l : List α} (h : l ≠ []) :
    (x :: l).getLast? = l.getLast? := by
  cases l with
  | nil => exact absurd rfl h
  | cons y l => exact List.getLast?_cons_cons

/-- For input that does not end in `'\n'`, the number of lines produced by
`str::lines()` is the number of `'\n'` characters plus one. -/
theorem rustLinesAux_length (s : List Char) :
    ∀ acc : List Char, s.getLast? ≠ some '\n' → (s ≠ [] ∨ acc ≠ []) →
      (rustLinesAux s acc).length = s.count '\n' + 1 := by
  induction s with
  | nil =>
    intro acc h1 h2
    rcases h2 with h2 | h2
    · exact absurd rfl h2
    · simp [rustLinesAux, h2]
  | cons c rest ih =>
    intro acc h1 _
    by_cases hc : c = '\n'
    · subst hc
      have hrest : rest ≠ [] := by
        intro hr; subst hr; simp at h1
      have step : rustLinesAux ('\n' :: rest) acc =
          (stripCR acc).reverse :: rustLinesAux rest [] := by
        simp [rustLinesAux]
      have h1' : rest.getLast? ≠ some '\n' := by
        rwa [getLast?_cons_of_ne_nil _ hrest] at h1
      rw [step, List.length_cons, ih [] h1' (Or.inl hrest)]
      simp [List.count_cons]
    · have step : rustLinesAux (c :: rest) acc = rustLinesAux rest (c :: acc) := by
        simp [rustLinesAux, hc]
      rw [step]
      cases rest with
      | nil =>
        simp [rustLinesAux, List.count_cons, hc]
      | cons r rest' =>
        have h1' : (r :: rest').getLast? ≠ some '\n' := by
          rwa [List.getLast?_cons_cons] at h1
        rw [ih (c :: acc) h1' (Or.inl (by simp))]
        simp [List.count_cons, hc]

/-- For input that does not end in `'\n'`, the last line produced by
`str::lines()` is the suffix after the last `'\n'` (or the whole input
prefixed by the pending accumulator when there is no `'\n'`). -/
theorem rustLinesAux_getLast (s : List Char) :
    ∀ acc : List Char, s.getLast? ≠ some '\n' → (s ≠ [] ∨ acc ≠ []) →
      ((rustLinesAux s acc).getLast?.getD []) =
        if '\n' ∈ s then lastLineOf s else acc.reverse ++ s := by
  induction s with
  | nil =>
    intro acc h1 h2
    rcases h2 with h2 | h2
    · exact absurd rfl h2
    · simp [rustLinesAux, h2]
  | cons c rest ih =>
    intro acc h1 _
    by_cases hc : c = '\n'
    · subst hc
      have hrest : rest ≠ [] := by
        intro hr; subst hr; simp at h1
      have step : rustLinesAux ('\n' :: rest) acc =
          (stripCR acc).reverse :: rustLinesAux rest [] := by
        simp [rustLinesAux]
      have h1' : rest.getLast? ≠ some '\n' := by
        rwa [getLast?_cons_of_ne_nil _ hrest] at h1
      have hne := rustLinesAux_ne_nil rest [] (Or.inl hrest)
      rw [step, getLast?_cons_of_ne_nil _ hne, ih [] h1' (Or.inl hrest)]
      rw [if_pos (show '\n' ∈ ('\n' :: rest) by simp)]
      by_cases hm : '\n' ∈ rest
      · rw [if_pos hm]
        simp [lastLineOf, hm]
      · rw [if_neg hm]
        simp [lastLineOf, hm]
    · have step : rustLinesAux (c :: rest) acc = rustLinesAux rest (c :: acc) := by
        simp [rustLinesAux, hc]
      rw [step]
      cases rest with
      | nil =>
        have hm : ¬ ('\n' ∈ [c]) := by
          intro h
          simp at h
          exact hc h.symm
        rw [if_neg hm]
        simp [rustLinesAux]
      | cons r rest' =>
        have h1' : (r :: rest').getLast? ≠ some '\n' := by
          rwa [List.getLast?_cons_cons] at h1
        rw [ih (c :: acc) h1' (Or.inl (by simp))]
        by_cases hm : '\n' ∈ (r :: rest')
        · rw [if_pos hm, if_pos (List.mem_cons_of_mem c hm)]
          simp [lastLineOf, hm]
        · have hmc : ¬ ('\n' ∈ (c :: r :: rest')) := by
            intro h
            rcases List.mem_cons.mp h with h | h
            · exact hc h.symm
            · exact hm h
          rw [if_neg hm, if_neg hmc]
          simp [lastLineOf, hm, hc]

/-- The accumulator-advance of the code, restated against independent
notions: for a non-empty lexeme that does not end in a line break, the
number of `'\n'` characters is added to `line`, and `offset` becomes the
length of the suffix after the last `'\n'` (or grows by the whole lexeme
length when there is no line break at all). -/
theorem advance_spec (line offset : Nat) (lexeme : List Char)
    (h1 : lexeme ≠ []) (h2 : lexeme.getLast? ≠ some '\n') :
    advance line offset lexeme =
      (line + lexeme.count '\n',
       if lexeme.count '\n' = 0 then offset + lexeme.length
       else (lastLineOf lexeme).length) := by
  have hlen : (rustLines lexeme).length = lexeme.count '\n' + 1 :=
    rustLinesAux_length lexeme [] h2 (Or.inl h1)
  by_cases hcnt : lexeme.count '\n' = 0
  · unfold advance
    rw [hlen, hcnt, if_pos rfl, if_pos rfl]
    simp
  · have hmem : '\n' ∈ lexeme := by
      by_contra hm
      exact hcnt (List.count_eq_zero.mpr hm)
    have hlast : ((rustLines lexeme).getLast?.getD []) = lastLineOf lexeme := by
      unfold rustLines
      rw [rustLinesAux_getLast lexeme [] h2 (Or.inl h1), if_pos hmem]
    unfold advance
    rw [hlen, if_neg (by omega), if_neg hcnt, hlast]
    simp

theorem getLastD_cons {α : Type} (a d : α) (l : List α) :
    ((a :: l).getLast?).getD d = (l.getLast?).getD a := by
  cases l with
  | nil => rfl
  | cons b l =>
    rw [List.getLast?_cons_cons]
    cases h : (b :: l).getLast? with
    | none => rw [List.getLast?_eq_none_iff] at h; exact absurd h (by simp)
    | some x => rfl

/-- Lexical categories of `luthor::token::Category`. The navigation code
only ever distinguishes `Whitespace` from every other constructor. -/
inductive Category where
  | Whitespace
  | Identifier
  | Keyword
  | Brace
  | Bracket
  | Parenthesis
  | Operator
  | Integer
  | Float
  | String
  | Boolean
  | Text
  | Comment
  | Function
  | Method
  | Call
deriving DecidableEq

/-- Model of `luthor::token::Token`: a lexeme and its lexical category. -/
structure Token where
  lexeme : List Char
  category : Category
deriving DecidableEq

/-- Loop body of `move_to_start_of_previous_token`
(`src/commands/cursor.rs` lines 104-131): `closest_position` is updated to
the current token's start (`next_position`) unless the token is
whitespace, the accumulator advances over the token, and the loop breaks
once the position after the token is `>=` the cursor. -/
def prevLoop (cursor : Position) :
    List Token → Nat → Nat → Position → Position → Position
  | [], _, _, closest, _ => closest
  | t :: rest, line, offset, closest, next =>
    let closest2 := if t.category = Category.Whitespace then closest else next
    let p := advance line offset t.lexeme
    if cursor ≤ ⟨p.1, p.2⟩ then closest2
    else prevLoop cursor rest p.1 p.2 closest2 ⟨p.1, p.2⟩

/-- `move_to_start_of_previous_token` (`src/commands/cursor.rs` lines
96-137) on the token sequence of the current buffer: runs the scan from
`line = 0`, `offset = 0`, `closest_position = next_position = (0,0)` and
moves the cursor to the resulting `closest_position`. -/
def move_to_start_of_previous_token (tokens : List Token) (cursor : Position) : Position :=
  prevLoop cursor tokens 0 0 ⟨0, 0⟩ ⟨0, 0⟩

/-- Loop body of `move_to_start_of_next_token`
(`src/commands/cursor.rs` lines 146-174): when the current token's start
(`next_position`) is strictly past the cursor and the token is not
whitespace, the cursor moves there and the loop breaks; otherwise the
accumulator advances over the token. -/
def nextLoop (cursor : Position) : List Token → Nat → Nat → Position → Position
  | [], _, _, _ => cursor
  | t :: rest, line, offset, next =>
    if cursor < next ∧ ¬ t.category = Category.Whitespace then next
    else
      let p := advance line offset t.lexeme
      nextLoop cursor rest p.1 p.2 ⟨p.1, p.2⟩

/-- `move_to_start_of_next_token` (`src/commands/cursor.rs` lines
139-179): runs the scan from `line = 0`, `offset = 0`,
`next_position = (0,0)`; when the loop ends without a qualifying token the
cursor is left where it was. -/
def move_to_start_of_next_token (tokens : List Token) (cursor : Position) : Position :=
  nextLoop cursor tokens 0 0 ⟨0, 0⟩

/-- The start positions of the tokens, computed by the same accumulator
the two motions use: the i-th entry is the value `next_position` has when
the i-th token is examined. -/
def tokenStartsAux : List Token → Nat → Nat → List Position
  | [], _, _ => []
  | t :: rest, line, offset =>
    ⟨line, offset⟩ ::
      (let p := advance line offset t.lexeme
       tokenStartsAux rest p.1 p.2)

def tokenStarts (tokens : List Token) : List Position := tokenStartsAux tokens 0 0

/-- The accumulator after consuming a whole token list. -/
def posAfterAux : List Token → Nat → Nat → Nat × Nat
  | [], line, offset => (line, offset)
  | t :: rest, line, offset =>
    let p := advance line offset t.lexeme
    posAfterAux rest p.1 p.2

/-- The position just after the last token of `tokens`, starting the scan
at the origin. `posAfter pre` is the start of the first token after the
prefix `pre`. -/
def posAfter (tokens : List Token) : Position :=
  ⟨(posAfterAux tokens 0 0).1, (posAfterAux tokens 0 0).2⟩

theorem tokenStartsAux_length (ts : List Token) :
    ∀ line offset, (tokenStartsAux ts line offset).length = ts.length := by
  induction ts with
  | nil => intro line offset; rfl
  | cons t rest ih => intro line offset; simp [tokenStartsAux, ih]

theorem tokenStartsAux_mono (ts : List Token) :
    ∀ line offset, (∀ t ∈ ts, t.lexeme ≠ []) →
      ∀ s ∈ tokenStartsAux ts line offset, (⟨line, offset⟩ : Position) ≤ s := by
  induction ts with
  | nil =>
    intro line offset _ s hs
    simp [tokenStartsAux] at hs
  | cons t rest ih =>
    intro line offset hlex s hs
    simp only [tokenStartsAux, List.mem_cons] at hs
    rcases hs with rfl | hs
    · exact pos_le_refl _
    · have ht : t.lexeme ≠ [] := hlex t (by simp)
      have h2 := ih (advance line offset t.lexeme).1 (advance line offset t.lexeme).2
        (fun u hu => hlex u (by simp [hu])) s hs
      exact pos_le_trans (pos_le_of_lt (advance_pos_lt line offset ht)) h2

theorem posAfterAux_append (ts ts' : List Token) :
    ∀ line offset, posAfterAux (ts ++ ts') line offset =
      posAfterAux ts' (posAfterAux ts line offset).1 (posAfterAux ts line offset).2 := by
  induction ts with
  | nil => intro line offset; rfl
  | cons t rest ih => intro line offset; simp [posAfterAux, ih]

theorem tokenStartsAux_append (ts ts' : List Token) :
    ∀ line offset, tokenStartsAux (ts ++ ts') line offset =
      tokenStartsAux ts line offset ++
        tokenStartsAux ts' (posAfterAux ts line offset).1 (posAfterAux ts line offset).2 := by
  induction ts with
  | nil => intro line offset; rfl
  | cons t rest ih => intro line offset; simp [tokenStartsAux, posAfterAux, ih]


/-- The qualifying test of the next-token motion, on a token paired with
its start position: the start is strictly past the cursor and the token is
not whitespace. -/
def nextPred (cursor : Position) : Token × Position → Bool :=
  fun p => decide (cursor < p.2) && ! decide (p.1.category = Category.Whitespace)

/-- The qualifying test of the previous-token motion, on a token paired
with its start position: the token is not whitespace and starts strictly
before the cursor. -/
def prevPred (cursor : Position) : Token × Position → Bool :=
  fun p => ! decide (p.1.category = Category.Whitespace) && decide (p.2 < cursor)

/-- The forward scan of `move_to_start_of_next_token` lands on the first
token in order whose start is strictly past the cursor and which is not
whitespace; when no token qualifies, the cursor stays. -/
theorem nextLoop_eq_find (cursor : Position) (ts : List Token) :
    ∀ line offset,
      nextLoop cursor ts line offset ⟨line, offset⟩ =
        ((((ts.zip (tokenStartsAux ts line offset)).find? (nextPred cursor)).map
          (fun p => p.2)).getD cursor) := by
  induction ts with
  | nil => intro line offset; rfl
  | cons t rest ih =>
    intro line offset
    have hzip : (t :: rest).zip (tokenStartsAux (t :: rest) line offset) =
        (t, (⟨line, offset⟩ : Position)) ::
          rest.zip (tokenStartsAux rest (advance line offset t.lexeme).1
            (advance line offset t.lexeme).2) := by
      simp [tokenStartsAux]
    rw [hzip]
    by_cases hp : cursor < (⟨line, offset⟩ : Position) ∧ ¬ t.category = Category.Whitespace
    · have hpred : nextPred cursor (t, ⟨line, offset⟩) = true := by
        simp [nextPred, hp.1, hp.2]
      rw [List.find?_cons_of_pos _ hpred]
      simp only [nextLoop]
      rw [if_pos hp]
      rfl
    · have hpred : ¬ nextPred cursor (t, ⟨line, offset⟩) = true :=
        fun hcon => hp (by simpa [nextPred] using hcon)
      rw [List.find?_cons_of_neg _ hpred]
      simp only [nextLoop]
      rw [if_neg hp]
      exact ih (advance line offset t.lexeme).1 (advance line offset t.lexeme).2

/-- The backward motion characterised by a forward computation: starting
anywhere strictly before the cursor, `prevLoop` returns the start of the
last non-whitespace token that begins strictly before the cursor, falling
back to the `closest` accumulator when there is none. Requires non-empty
lexemes (on an empty lexeme the original code panics). -/
theorem prevLoop_eq_filter (cursor : Position) (ts : List Token) :
    ∀ line offset closest, (∀ t ∈ ts, t.lexeme ≠ []) →
      (⟨line, offset⟩ : Position) < cursor →
      prevLoop cursor ts line offset closest ⟨line, offset⟩ =
        (((((ts.zip (tokenStartsAux ts line offset)).filter (prevPred cursor)).map
          (fun p => p.2)).getLast?).getD closest) := by
  induction ts with
  | nil => intro line offset closest _ _; rfl
  | cons t rest ih =>
    intro line offset closest hlex hlt
    have hzip : (t :: rest).zip (tokenStartsAux (t :: rest) line offset) =
        (t, (⟨line, offset⟩ : Position)) ::
          rest.zip (tokenStartsAux rest (advance line offset t.lexeme).1
            (advance line offset t.lexeme).2) := by
      simp [tokenStartsAux]
    rw [hzip, List.filter_cons]
    by_cases hbrk : cursor ≤
        (⟨(advance line offset t.lexeme).1, (advance line offset t.lexeme).2⟩ : Position)
    · have hrest : (rest.zip (tokenStartsAux rest (advance line offset t.lexeme).1
          (advance line offset t.lexeme).2)).filter (prevPred cursor) = [] := by
        rw [List.filter_eq_nil_iff]
        intro p hp
        have hmem := (List.of_mem_zip hp).2
        have hge := tokenStartsAux_mono rest (advance line offset t.lexeme).1
          (advance line offset t.lexeme).2 (fun u hu => hlex u (by simp [hu])) p.2 hmem
        have hnlt : ¬ p.2 < cursor := pos_not_lt_of_le (pos_le_trans hbrk hge)
        simp [prevPred, hnlt]
      rw [hrest]
      simp only [prevLoop]
      rw [if_pos hbrk]
      by_cases hws : t.category = Category.Whitespace
      · have hpredF : ¬ prevPred cursor (t, (⟨line, offset⟩ : Position)) = true := by
          simp [prevPred, hws]
        rw [if_neg hpredF, if_pos hws]
        rfl
      · have hpredT : prevPred cursor (t, (⟨line, offset⟩ : Position)) = true := by
          simp [prevPred, hws, hlt]
        rw [if_pos hpredT, if_neg hws]
        rfl
    · have hlt2 : (⟨(advance line offset t.lexeme).1,
          (advance line offset t.lexeme).2⟩ : Position) < cursor :=
        pos_lt_of_not_le hbrk
      have hih := ih (advance line offset t.lexeme).1 (advance line offset t.lexeme).2
        (if t.category = Category.Whitespace then closest else ⟨line, offset⟩)
        (fun u hu => hlex u (by simp [hu])) hlt2
      simp only [prevLoop]
      rw [if_neg hbrk]
      by_cases hws : t.category = Category.Whitespace
      · have hpredF : ¬ prevPred cursor (t, (⟨line, offset⟩ : Position)) = true := by
          simp [prevPred, hws]
        rw [if_neg hpredF]
        simpa [hws] using hih
      · have hpredT : prevPred cursor (t, (⟨line, offset⟩ : Position)) = true := by
          simp [prevPred, hws, hlt]
        rw [if_pos hpredT, List.map_cons, getLastD_cons]
        simpa [hws] using hih

/-- Top-level characterisation of the previous-token motion: the cursor
lands on the start of the last (hence nearest) non-whitespace token that
begins strictly before it, or at the origin when no such token exists. -/
theorem prev_token_eq (ts : List Token) (cursor : Position)
    (h : ∀ t ∈ ts, t.lexeme ≠ []) :
    move_to_start_of_previous_token ts cursor =
      ((((ts.zip (tokenStarts ts)).filter (prevPred cursor)).map
        (fun p => p.2)).getLast?).getD ⟨0, 0⟩ := by
  rcases pos_zero_or_zero_lt cursor with hc | hc
  · subst hc
    have hfilter : (ts.zip (tokenStarts ts)).filter (prevPred ⟨0, 0⟩) = [] := by
      rw [List.filter_eq_nil_iff]
      intro p _
      simp [prevPred, pos_not_lt_zero]
    rw [hfilter]
    cases ts with
    | nil => rfl
    | cons t rest =>
      simp only [move_to_start_of_previous_token, prevLoop]
      rw [if_pos (pos_zero_le _)]
      simp
  · exact prevLoop_eq_filter cursor ts 0 0 ⟨0, 0⟩ h hc

/-- Top-level characterisation of the next-token motion: the cursor lands
on the first token start strictly past it belonging to a non-whitespace
token, and stays put when no token qualifies. -/
theorem next_token_eq (ts : List Token) (cursor : Position) :
    move_to_start_of_next_token ts cursor =
      (((ts.zip (tokenStarts ts)).find? (nextPred cursor)).map
        (fun p => p.2)).getD cursor :=
  nextLoop_eq_find cursor ts 0 0

/-- Every value the `closest_position` accumulator can take is bounded by
the cursor, so the backward motion never moves forward. -/
theorem prevLoop_le (cursor : Position) (ts : List Token) :
    ∀ line offset closest next, closest ≤ cursor → next ≤ cursor →
      prevLoop cursor ts line offset closest next ≤ cursor := by
  induction ts with
  | nil =>
    intro l o closest next h1 _
    exact h1
  | cons t rest ih =>
    intro l o closest next h1 h2
    simp only [prevLoop]
    by_cases hbrk : cursor ≤
        (⟨(advance l o t.lexeme).1, (advance l o t.lexeme).2⟩ : Position)
    · rw [if_pos hbrk]
      by_cases hws : t.category = Category.Whitespace
      · rw [if_pos hws]; exact h1
      · rw [if_neg hws]; exact h2
    · rw [if_neg hbrk]
      have hle : (⟨(advance l o t.lexeme).1, (advance l o t.lexeme).2⟩ : Position) ≤ cursor :=
        pos_le_of_lt (pos_lt_of_not_le hbrk)
      by_cases hws : t.category = Category.Whitespace
      · rw [if_pos hws]; exact ih _ _ _ _ h1 hle
      · rw [if_neg hws]; exact ih _ _ _ _ h2 hle

/-- The Unicode White_Space property, the test performed by Rust's
`char::is_whitespace()`. -/
def rustIsWhitespace (c : Char) : Bool :=
  decide (9 ≤ c.toNat ∧ c.toNat ≤ 13) || decide (c.toNat = 32) ||
  decide (c.toNat = 133) || decide (c.toNat = 160) ||
  decide (c.toNat = 0x1680) || decide (0x2000 ≤ c.toNat ∧ c.toNat ≤ 0x200a) ||
  decide (c.toNat = 0x2028) || decide (c.toNat = 0x2029) ||
  decide (c.toNat = 0x202f) || decide (c.toNat = 0x205f) ||
  decide (c.toNat = 0x3000)

/-- The enumerate-and-return loop of `move_to_first_word_of_line`
(`src/commands/cursor.rs` lines 51-63): the index of the first character
that is not whitespace, if any. -/
def firstNonWsIdx : List Char → Option Nat
  | [] => none
  | c :: rest =>
    if rustIsWhitespace c then (firstNonWsIdx rest).map (fun i => i + 1)
    else some 0

/-- `move_to_first_word_of_line` (`src/commands/cursor.rs` lines 44-70):
fetch the cursor's line from `buffer.data().lines()`, scan it left to
right, and move to the offset of the first non-whitespace character on the
same line; otherwise leave the cursor unmoved. -/
def move_to_first_word_of_line (content : List Char) (cursor : Position) : Position :=
  match (rustLines content)[cursor.line]? with
  | none => cursor
  | some l =>
    match firstNonWsIdx l with
    | none => cursor
    | some i => ⟨cursor.line, i⟩

/-- The scanning loop, characterised without recursion: it fails on an
all-whitespace line and otherwise yields the length of the whitespace
prefix. -/
theorem firstNonWsIdx_spec (l : List Char) :
    firstNonWsIdx l =
      if l.all rustIsWhitespace then none
      else some (l.takeWhile rustIsWhitespace).length := by
  induction l with
  | nil => rfl
  | cons c rest ih =>
    by_cases hc : rustIsWhitespace c = true
    · rw [show firstNonWsIdx (c :: rest) = (firstNonWsIdx rest).map (fun i => i + 1) by
        simp [firstNonWsIdx, hc]]
      rw [ih]
      by_cases hall : rest.all rustIsWhitespace = true
      · rw [if_pos hall, if_pos (by simp [List.all_cons, hc, hall])]
        rfl
      · rw [if_neg hall, if_neg (by simp [List.all_cons, hall])]
        simp [List.takeWhile_cons, hc]
    · rw [show firstNonWsIdx (c :: rest) = some 0 by simp [firstNonWsIdx, hc]]
      rw [if_neg (by simp [List.all_cons, hc])]
      simp [List.takeWhile_cons, hc]

/-- The `Mode` enum of `src/models/application/mod.rs` lines 22-36. The
mode-specific payloads (`ConfirmMode`, `CommandMode`, ...) live outside
this crate; `mode_str` reads exactly one bit of them — whether the
search-select state is in its insert sub-state (`insert_mode()`) — so each
of the four search-select payloads is modelled by that flag and the
remaining payloads by nothing. -/
inductive Mode where
  | Confirm
  | Command (insert : Bool)
  | Exit
  | Insert
  | Jump
  | LineJump
  | Normal
  | Open (insert : Bool)
  | Select
  | SelectLine
  | SearchInsert
  | SymbolJump (insert : Bool)
  | Theme (insert : Bool)
deriving DecidableEq

/-- `Application::mode_str` (`src/models/application/mod.rs` lines
212-244): the keymap name for the active mode; `Exit` yields none. -/
def mode_str : Mode → Option String
  | Mode.Command insert =>
    if insert then some "search_select_insert" else some "search_select"
  | Mode.SymbolJump insert =>
    if insert then some "search_select_insert" else some "search_select"
  | Mode.Open insert =>
    if insert then some "search_select_insert" else some "search_select"
  | Mode.Theme insert =>
    if insert then some "search_select_insert" else some "search_select"
  | Mode.Normal => some "normal"
  | Mode.Confirm => some "confirm"
  | Mode.Insert => some "insert"
  | Mode.Jump => some "jump"
  | Mode.LineJump => some "line_jump"
  | Mode.Select => some "select"
  | Mode.SelectLine => some "select_line"
  | Mode.SearchInsert => some "search_insert"
  | Mode.Exit => none

/-- The observable state of the `Application` aggregate that the run-loop
claims speak about: the active mode, the cursor of the current buffer, and
the error stored from the last dispatched command. -/
structure AppState where
  mode : Mode
  cursor : Position
  error : Option String
deriving DecidableEq

/-- A command takes the application by exclusive access and returns the
mutated application together with an optional error (`Result<(), Error>`
with the mutation by `&mut`). -/
def Command : Type := AppState → AppState × Option String

/-- `if let Mode::Exit = self.mode` of the run loop's exit check. -/
def isExitMode : Mode → Bool
  | Mode.Exit => true
  | _ => false

/-- One iteration of `Application::run` (`src/models/application/mod.rs`
lines 188-206), given the optional key event produced by
`self.view.listen()`: resolve the keymap name of the current mode, look up
the command for the key, run it and store its error output, then report
whether the `Mode::Exit` check breaks the loop. Rendering and error
display (lines 111-186) only touch the view collaborator, not this
state. -/
def runIter {Key : Type} (km : String → Key → Option Command)
    (event : Option Key) (app : AppState) : AppState × Bool :=
  let command := event.bind fun key => (mode_str app.mode).bind fun m => km m key
  let app2 := match command with
    | none => app
    | some com =>
      let r := com app
      { r.1 with error := r.2 }
  (app2, isExitMode app2.mode)

/-- `Application::run`'s loop, driven by a finite trace of `listen()`
results. The boolean records whether the loop terminated through the
`Mode::Exit` check within the trace; when the trace is exhausted first the
loop is still running. -/
def runTrace {Key : Type} (km : String → Key → Option Command) :
    List (Option Key) → AppState → AppState × Bool
  | [], app => (app, false)
  | e :: rest, app =>
    let r := runIter km e app
    if r.2 then (r.1, true) else runTrace km rest r.1

/-- Token sequence the tokenizer collaborator produces for the content
`"amp editor"`. -/
def ampTok : Token := ⟨['a', 'm', 'p'], Category.Text⟩

def spaceTok : Token := ⟨[' '], Category.Whitespace⟩

def editorTok : Token := ⟨['e', 'd', 'i', 't', 'o', 'r'], Category.Text⟩

def ampTokens : List Token := [ampTok, spaceTok, editorTok]

/-- Three adjacent non-whitespace tokens (content `"foobarbaz"`), used to
probe the round-trip property with no whitespace boundary anywhere. -/
def fooTokens : List Token :=
  [⟨['f', 'o', 'o'], Category.Text⟩, ⟨['b', 'a', 'r'], Category.Text⟩,
   ⟨['b', 'a', 'z'], Category.Text⟩]

/-- A keymap with no binding at all. -/
def emptyKeyMap : String → Nat → Option Command := fun _ _ => none

/-- A command that only switches the application to insert mode. -/
def insertCmd : Command := fun app => ({ app with mode := Mode.Insert }, none)

/-- A command that only switches the application to exit mode. -/
def exitCmd : Command := fun app => ({ app with mode := Mode.Exit }, none)

/-- A keymap binding every key of every mode to `insertCmd`. -/
def insertKeyMap : String → Nat → Option Command := fun _ _ => some insertCmd

/-- A keymap binding every key of every mode to `exitCmd`. -/
def exitKeyMap : String → Nat → Option Command := fun _ _ => some exitCmd

/-- An application in normal mode, cursor at the origin, no stored
error. -/
def app0 : AppState := ⟨Mode.Normal, ⟨0, 0⟩, none⟩

theorem isExitMode_eq_true_iff (m : Mode) : isExitMode m = true ↔ m = Mode.Exit := by
  cases m <;> simp [isExitMode]

/-- C1: for every buffer whose tokens all have non-empty lexemes (on an
empty lexeme the code panics), `move_to_start_of_previous_token` moves the
cursor to the start of the nearest non-whitespace token beginning strictly
before the cursor — the last element of the in-order list of qualifying
token starts — skipping whitespace tokens entirely, and to the origin when
no token qualifies. -/
theorem claim_C1 (ts : List Token) (cursor : Position)
    (h : ∀ t ∈ ts, t.lexeme ≠ []) :
    move_to_start_of_previous_token ts cursor =
      ((((ts.zip (tokenStarts ts)).filter (prevPred cursor)).map
        (fun p => p.2)).getLast?).getD ⟨0, 0⟩ :=
  prev_token_eq ts cursor h

/-- C1 witness: the spec's scenario: content `"amp editor"`, cursor at
offset 7, moves to offset 4, and a second invocation moves to offset 0. -/
theorem claim_C1_witness :
    move_to_start_of_previous_token ampTokens ⟨0, 7⟩ = ⟨0, 4⟩ ∧
    move_to_start_of_previous_token ampTokens ⟨0, 4⟩ = ⟨0, 0⟩ :=
  ⟨(claim_C1 ampTokens ⟨0, 7⟩ (by decide)).trans (by decide),
   (claim_C1 ampTokens ⟨0, 4⟩ (by decide)).trans (by decide)⟩

/-- C2: `move_to_start_of_next_token` moves the cursor to the start of the
first token in order whose start is strictly greater than the cursor and
which is not whitespace; when no such token follows, the cursor is left
unchanged. In particular, on `"amp editor"` from offset 0 it moves to
offset 4. -/
theorem claim_C2 :
    (∀ (ts : List Token) (cursor : Position),
      move_to_start_of_next_token ts cursor =
        (((ts.zip (tokenStarts ts)).find? (nextPred cursor)).map
          (fun p => p.2)).getD cursor) ∧
    move_to_start_of_next_token ampTokens ⟨0, 0⟩ = ⟨0, 4⟩ :=
  ⟨next_token_eq, by decide⟩

/-- C3 counterexample: for the lexeme consisting of exactly one newline,
the claim prescribes adding 1 to the line and resetting the offset — the
pair `(1, 0)` from `(0, 0)` — but `lines().count()` is `1` on `"\n"`, so
the code takes the single-line branch and adds the lexeme length to the
offset instead, producing `(0, 1)`. -/
theorem claim_C3_counterexample :
    advance 0 0 ['\n'] = (0, 1) ∧ advance 0 0 ['\n'] ≠ (1, 0) := by
  decide

/-- C3 amended: the accumulator rule holds for every non-empty lexeme that
does not end with a line break: the count of `'\n'` characters is added to
`line`, and `offset` becomes the length of the suffix after the last
`'\n'` (or grows by the lexeme length when there is no break). Lexemes
ending in a line break are miscounted by `lines()` and do not obey the
spec's rule. -/
theorem claim_C3_amended (line offset : Nat) (lexeme : List Char)
    (h1 : lexeme ≠ []) (h2 : lexeme.getLast? ≠ some '\n') :
    advance line offset lexeme =
      (line + lexeme.count '\n',
       if lexeme.count '\n' = 0 then offset + lexeme.length
       else (lastLineOf lexeme).length) :=
  advance_spec line offset lexeme h1 h2

/-- C3 witness: advancing over the two-line lexeme `"a\nbc"` from
`(0, 5)` adds one line and sets the offset to the final line's length. -/
theorem claim_C3_witness : advance 0 5 ['a', '\n', 'b', 'c'] = (1, 2) :=
  (claim_C3_amended 0 5 ['a', '\n', 'b', 'c'] (by decide) (by decide)).trans
    (by decide)

/-- C4 counterexample: with an empty token sequence the previous-token
motion does not leave an arbitrary cursor unchanged — the loop body never
runs and the code unconditionally moves the cursor to the initial
`closest_position` `(0,0)`. (With an in-bounds cursor the token sequence
is empty only for empty content, where `(0,0)` is the only position, so
the difference shows only at out-of-bounds cursors.) -/
theorem claim_C4_counterexample :
    move_to_start_of_previous_token [] ⟨0, 5⟩ = ⟨0, 0⟩ ∧
    move_to_start_of_previous_token [] ⟨0, 5⟩ ≠ ⟨0, 5⟩ := by
  decide

/-- C4 amended: with an empty token sequence the next-token motion leaves
every cursor unchanged, while the previous-token motion sets the cursor to
`(0,0)` — which coincides with "unchanged" exactly when the cursor was
already at the origin, the only in-bounds position for content whose token
sequence is empty. -/
theorem claim_C4_amended (cursor : Position) :
    move_to_start_of_next_token [] cursor = cursor ∧
    move_to_start_of_previous_token [] cursor = ⟨0, 0⟩ :=
  ⟨rfl, rfl⟩

/-- C5 counterexample: on three adjacent non-whitespace tokens
`"foo" "bar" "baz"` (starts `(0,0)`, `(0,3)`, `(0,6)`), from cursor
`(0,4)` — strictly inside the second token — the previous-token motion
lands on that token's start `(0,3)`, but the following next-token motion
moves to `(0,6)`, the start of the *next* token, not back to the start of
the token the cursor began in, although no whitespace token exists at all,
so no whitespace boundary was crossed. -/
theorem claim_C5_counterexample :
    (∀ u ∈ fooTokens, ¬ u.category = Category.Whitespace) ∧
    (⟨0, 3⟩ : Position) < ⟨0, 4⟩ ∧ (⟨0, 4⟩ : Position) < ⟨0, 6⟩ ∧
    move_to_start_of_previous_token fooTokens ⟨0, 4⟩ = ⟨0, 3⟩ ∧
    move_to_start_of_next_token fooTokens
      (move_to_start_of_previous_token fooTokens ⟨0, 4⟩) = ⟨0, 6⟩ ∧
    move_to_start_of_next_token fooTokens
      (move_to_start_of_previous_token fooTokens ⟨0, 4⟩) ≠ ⟨0, 3⟩ := by
  decide

/-- C5 amended: from a cursor strictly inside a non-whitespace token `t`
(between `posAfter pre`, the start of `t`, and `posAfter (pre ++ [t])`,
its end), the previous-token motion does return to the start of that same
token; but the subsequent next-token motion does not stay there — it moves
to the start of the first non-whitespace token strictly after, leaving the
cursor at `t`'s start only when no such token exists. -/
theorem claim_C5_amended (pre : List Token) (t : Token) (post : List Token)
    (cursor : Position)
    (hlex : ∀ u ∈ pre ++ t :: post, u.lexeme ≠ [])
    (hws : ¬ t.category = Category.Whitespace)
    (h1 : posAfter pre < cursor)
    (h2 : cursor < posAfter (pre ++ [t])) :
    move_to_start_of_previous_token (pre ++ t :: post) cursor = posAfter pre ∧
    move_to_start_of_next_token (pre ++ t :: post) (posAfter pre) =
      ((((pre ++ t :: post).zip (tokenStarts (pre ++ t :: post))).find?
        (nextPred (posAfter pre))).map (fun p => p.2)).getD (posAfter pre) := by
  refine ⟨?_, next_token_eq _ _⟩
  have hlen : pre.length = (tokenStartsAux pre 0 0).length :=
    (tokenStartsAux_length pre 0 0).symm
  have hzip : (pre ++ t :: post).zip (tokenStarts (pre ++ t :: post)) =
      pre.zip (tokenStartsAux pre 0 0) ++
        (t :: post).zip (tokenStartsAux (t :: post)
          (posAfterAux pre 0 0).1 (posAfterAux pre 0 0).2) := by
    rw [show tokenStarts (pre ++ t :: post) =
        tokenStartsAux (pre ++ t :: post) 0 0 from rfl,
      tokenStartsAux_append]
    exact List.zip_append hlen
  have hcons : (t :: post).zip (tokenStartsAux (t :: post)
      (posAfterAux pre 0 0).1 (posAfterAux pre 0 0).2) =
      (t, posAfter pre) ::
        post.zip (tokenStartsAux post
          (advance (posAfterAux pre 0 0).1 (posAfterAux pre 0 0).2 t.lexeme).1
          (advance (posAfterAux pre 0 0).1 (posAfterAux pre 0 0).2 t.lexeme).2) := by
    simp [tokenStartsAux, posAfter]
  have hend : posAfter (pre ++ [t]) =
      ⟨(advance (posAfterAux pre 0 0).1 (posAfterAux pre 0 0).2 t.lexeme).1,
       (advance (posAfterAux pre 0 0).1 (posAfterAux pre 0 0).2 t.lexeme).2⟩ := by
    simp [posAfter, posAfterAux_append, posAfterAux]
  have hpost : (post.zip (tokenStartsAux post
      (advance (posAfterAux pre 0 0).1 (posAfterAux pre 0 0).2 t.lexeme).1
      (advance (posAfterAux pre 0 0).1 (posAfterAux pre 0 0).2 t.lexeme).2)).filter
        (prevPred cursor) = [] := by
    rw [List.filter_eq_nil_iff]
    intro p hp
    have hmem := (List.of_mem_zip hp).2
    have hge := tokenStartsAux_mono post
      (advance (posAfterAux pre 0 0).1 (posAfterAux pre 0 0).2 t.lexeme).1
      (advance (posAfterAux pre 0 0).1 (posAfterAux pre 0 0).2 t.lexeme).2
      (fun u hu => hlex u (by simp [hu])) p.2 hmem
    have hnlt : ¬ p.2 < cursor :=
      pos_not_lt_of_le (pos_le_of_lt (pos_lt_of_lt_of_le (hend ▸ h2) hge))
    simp [prevPred, hnlt]
  have hhead : prevPred cursor (t, posAfter pre) = true := by
    simp [prevPred, hws, h1]
  rw [prev_token_eq _ _ hlex, hzip, List.filter_append, hcons, List.filter_cons,
    if_pos hhead, hpost, List.map_append, List.map_cons, List.map_nil,
    List.getLast?_concat]
  rfl

/-- C5 witness: on `"amp editor"` from cursor `(0,2)` strictly inside
`"amp"`, the previous-token motion returns to `(0,0)` — the start of the
same token — and the subsequent next-token motion moves on to `(0,4)`. -/
theorem claim_C5_witness :
    move_to_start_of_previous_token ampTokens ⟨0, 2⟩ = ⟨0, 0⟩ ∧
    move_to_start_of_next_token ampTokens ⟨0, 0⟩ = ⟨0, 4⟩ := by
  have h := claim_C5_amended [] ampTok [spaceTok, editorTok] ⟨0, 2⟩
    (by decide) (by decide) (by decide) (by decide)
  exact ⟨h.1.trans (by decide), h.2.trans (by decide)⟩

/-- C6: `move_to_first_word_of_line` scans the cursor's line left to
right and moves the cursor, on the same line, to the offset of the first
non-whitespace character (the length of the line's whitespace prefix);
when the line is entirely whitespace or does not exist the cursor is left
unmoved. In particular on `"    amp"` from offset 7 it moves to
offset 4. -/
theorem claim_C6 :
    (∀ (content : List Char) (cursor : Position) (l : List Char),
      (rustLines content)[cursor.line]? = some l →
      move_to_first_word_of_line content cursor =
        if l.all rustIsWhitespace then cursor
        else ⟨cursor.line, (l.takeWhile rustIsWhitespace).length⟩) ∧
    (∀ (content : List Char) (cursor : Position),
      (rustLines content)[cursor.line]? = none →
      move_to_first_word_of_line content cursor = cursor) ∧
    move_to_first_word_of_line [' ', ' ', ' ', ' ', 'a', 'm', 'p'] ⟨0, 7⟩ = ⟨0, 4⟩ := by
  refine ⟨?_, ?_, by decide⟩
  · intro content cursor l hl
    have hstep : move_to_first_word_of_line content cursor =
        match firstNonWsIdx l with
        | none => cursor
        | some i => ⟨cursor.line, i⟩ := by
      unfold move_to_first_word_of_line
      rw [hl]
    rw [hstep, firstNonWsIdx_spec l]
    by_cases hall : l.all rustIsWhitespace = true
    · rw [if_pos hall, if_pos hall]
    · rw [if_neg hall, if_neg hall]
  · intro content cursor h
    unfold move_to_first_word_of_line
    rw [h]

/-- C6 witness: the spec's scenario, through the general statement: line 0
of `"    amp"` exists and is not all whitespace, its whitespace prefix has
length 4, so the cursor moves from offset 7 to offset 4. -/
theorem claim_C6_witness :
    move_to_first_word_of_line [' ', ' ', ' ', ' ', 'a', 'm', 'p'] ⟨0, 7⟩ = ⟨0, 4⟩ :=
  (claim_C6.1 [' ', ' ', ' ', ' ', 'a', 'm', 'p'] ⟨0, 7⟩
    [' ', ' ', ' ', ' ', 'a', 'm', 'p'] (by decide)).trans (by decide)

/-- C7: the mode-to-keymap-name mapping is the pure total function of the
`Mode` variant plus, for the four search-select modes, the embedded insert
flag, with exactly the names the spec lists; `Exit` yields no keymap name
at all. -/
theorem claim_C7 :
    mode_str Mode.Normal = some "normal" ∧
    mode_str Mode.Insert = some "insert" ∧
    mode_str Mode.Confirm = some "confirm" ∧
    mode_str Mode.Jump = some "jump" ∧
    mode_str Mode.LineJump = some "line_jump" ∧
    mode_str Mode.Select = some "select" ∧
    mode_str Mode.SelectLine = some "select_line" ∧
    mode_str Mode.SearchInsert = some "search_insert" ∧
    (∀ b : Bool, mode_str (Mode.Command b) =
      some (if b then "search_select_insert" else "search_select")) ∧
    (∀ b : Bool, mode_str (Mode.Open b) =
      some (if b then "search_select_insert" else "search_select")) ∧
    (∀ b : Bool, mode_str (Mode.SymbolJump b) =
      some (if b then "search_select_insert" else "search_select")) ∧
    (∀ b : Bool, mode_str (Mode.Theme b) =
      some (if b then "search_select_insert" else "search_select")) ∧
    mode_str Mode.Exit = none := by
  decide

/-- C8: when the pressed key has no command bound under the active mode's
keymap name, one dispatch step of the run loop leaves the mode, the cursor
and the stored error exactly as they were. -/
theorem claim_C8 {Key : Type} (km : String → Key → Option Command) (key : Key)
    (app : AppState) (m : String)
    (hm : mode_str app.mode = some m) (hk : km m key = none) :
    (runIter km (some key) app).1.mode = app.mode ∧
    (runIter km (some key) app).1.cursor = app.cursor ∧
    (runIter km (some key) app).1.error = app.error := by
  have happ : (runIter km (some key) app).1 = app := by
    unfold runIter
    simp [hm, hk]
  rw [happ]
  exact ⟨rfl, rfl, rfl⟩

/-- C8 witness: in normal mode with an empty keymap, dispatching a key
changes neither mode nor cursor nor error. -/
theorem claim_C8_witness :
    (runIter emptyKeyMap (some 0) app0).1.mode = app0.mode ∧
    (runIter emptyKeyMap (some 0) app0).1.cursor = app0.cursor ∧
    (runIter emptyKeyMap (some 0) app0).1.error = app0.error :=
  claim_C8 emptyKeyMap 0 app0 "normal" rfl rfl

/-- C9 counterexample: the loop does *not* treat an input event of `none`
as an implicit exit: starting in normal mode with every key bound to a
mode switch into insert mode, the trace `[none, some 0]` is consumed
without the loop terminating (the exit flag stays `false`) and the key
*after* the `none` is still dispatched — the mode ends up `Insert` — so
after `listen()` yields no key event the loop simply iterates again. -/
theorem claim_C9_counterexample :
    (runTrace insertKeyMap [Option.none, some 0] app0).2 = false ∧
    (runTrace insertKeyMap [Option.none, some 0] app0).1.mode = Mode.Insert ∧
    app0.mode = Mode.Normal := by
  decide

/-- C9 amended: the run loop terminates only by entering `Mode::Exit`;
when `listen()` yields no key event nothing is dispatched and the loop
iterates again with the application unchanged — exhaustion of the input
source is not an exit path. -/
theorem claim_C9_amended {Key : Type} (km : String → Key → Option Command) :
    (∀ (trace : List (Option Key)) (app : AppState),
      (runTrace km trace app).2 = true →
      (runTrace km trace app).1.mode = Mode.Exit) ∧
    (∀ (trace : List (Option Key)) (app : AppState),
      ¬ app.mode = Mode.Exit →
      runTrace km (Option.none :: trace) app = runTrace km trace app) := by
  constructor
  · intro trace
    induction trace with
    | nil =>
      intro app h
      simp [runTrace] at h
    | cons e rest ih =>
      intro app h
      by_cases hb : (runIter km e app).2 = true
      · have hmode : isExitMode (runIter km e app).1.mode = true := hb
        have hexit : (runIter km e app).1.mode = Mode.Exit :=
          (isExitMode_eq_true_iff _).mp hmode
        simp only [runTrace]
        rw [if_pos hb]
        exact hexit
      · simp only [runTrace] at h ⊢
        rw [if_neg hb] at h ⊢
        exact ih _ h
  · intro trace app hne
    have hiter : runIter km Option.none app = (app, isExitMode app.mode) := rfl
    have hfalse : ¬ (runIter km (Option.none : Option Key) app).2 = true := by
      rw [hiter]
      simp [isExitMode_eq_true_iff, hne]
    simp only [runTrace]
    rw [if_neg hfalse, hiter]

/-- C9 witness: a trace whose only key is bound to an exit command ends
with the flag set and the mode `Exit`; and a leading `none` event is
skipped, the loop continuing with the rest of the trace unchanged. -/
theorem claim_C9_witness :
    (runTrace exitKeyMap [some 0] app0).1.mode = Mode.Exit ∧
    runTrace emptyKeyMap [Option.none, some 0] app0 =
      runTrace emptyKeyMap [some 0] app0 :=
  ⟨(claim_C9_amended exitKeyMap).1 [some 0] app0 (by decide),
   (claim_C9_amended emptyKeyMap).2 [some 0] app0 (by decide)⟩

/-- C10: the token motions are monotone in the lexicographic order on
positions: the previous-token motion never moves the cursor forward and
the next-token motion never moves it backward. -/
theorem claim_C10 (ts : List Token) (cursor : Position) :
    move_to_start_of_previous_token ts cursor ≤ cursor ∧
    cursor ≤ move_to_start_of_next_token ts cursor := by
  constructor
  · exact prevLoop_le cursor ts 0 0 ⟨0, 0⟩ ⟨0, 0⟩ (pos_zero_le _) (pos_zero_le _)
  · rw [next_token_eq]
    cases hf : (ts.zip (tokenStarts ts)).find? (nextPred cursor) with
    | none => simp [pos_le_refl]
    | some p =>
      have hp := List.find?_some hf
      have hlt : cursor < p.2 ∧ ¬ p.1.category = Category.Whitespace := by
        simpa [nextPred] using hp
      simpa using pos_le_of_lt hlt.1
